import Mathlib

/-!
Shallow embedding of the LeanEvolve search-control subsystem: the MAP-Elites
archive (`src/application/map_archive.py`, `map_config.py`), the verification
cascade's pass@k evaluator (`src/application/evaluator/evaluator.py`), the
batched response re-grouping (`src/application/evaluator/KiminaPool.py`), the
fitness merge (`src/application/fitness/fitness_evaluator.py`) and the
operator scheduler (`src/application/sampler.py`).

Modelling conventions: Python floats are modelled as exact rationals, with an
explicit NaN tag where the code performs a NaN check; Python ints are `ℤ` (or
`ℕ` for indices); Python dicts are association lists inserted in order with
in-place overwrite, matching insertion-ordered `dict` semantics; fallible code
returns `Option`/`Except`.
-/

/-- A Python float value: NaN, or an exact numeric value (floats are modelled
as exact rationals). The NaN tag keeps the `score_f != score_f` check of
`_feature_key` expressible. -/
inductive PyFloat where
  | nan : PyFloat
  | val (q : ℚ) : PyFloat
deriving DecidableEq

/-- A Python scalar as it may appear as a feature value in `entry["map_scores"]`:
an int, a float, or a non-numeric string (anything failing
`isinstance(val, (int, float))`). -/
inductive PyVal where
  | intV (n : ℤ) : PyVal
  | floatV (x : PyFloat) : PyVal
  | strV (s : String) : PyVal
deriving DecidableEq

/-- Python `d.get(k)` on an insertion-ordered dict modelled as an association
list: the value at the first (only) binding of `k`, or `None`. -/
def pyGet {α β : Type} [DecidableEq α] (m : List (α × β)) (k : α) : Option β :=
  (m.find? (fun p => decide (p.1 = k))).map Prod.snd

/-- Python `d[k] = v` on a dict modelled as an association list: overwrite the
existing binding in place, else append a new one (insertion order). -/
def dictSet {α β : Type} [DecidableEq α] : List (α × β) → α → β → List (α × β)
  | [], k, v => [(k, v)]
  | p :: rest, k, v => if p.1 = k then (k, v) :: rest else p :: dictSet rest k v

/-- Configuration of the MAP-Elites archive (`map_config.MapConfig`): the
ordered feature dimensions, the per-dimension bin counts, and the pruning
parameters. `file_path`/`reset_each_iter` are I/O and orchestration settings
with no bearing on the claims and are omitted. -/
structure MapConfig where
  dims : List String
  bins : List (String × ℤ)
  prune_threshold : ℚ
  stale_after_sec : ℤ
deriving DecidableEq

/-- Bin count for dimension `d`: `_cfg.bins[dim]`. A missing dimension would
raise `KeyError` in Python, but `MapConfig.__post_init__` validates that every
dimension of `dims` appears in `bins`; theorems carry that as a hypothesis,
and the model returns 0 on the unreachable miss. -/
def binsOf (cfg : MapConfig) (d : String) : ℤ :=
  (pyGet cfg.bins d).getD 0

/-- The default `MapConfig()` of the source: four dimensions, ten bins each,
`prune_threshold=0.0`, `stale_after_sec=0`. -/
def defaultCfg : MapConfig :=
  { dims := ["novelty", "difficulty", "depth", "provability_estimate"]
    bins := [("novelty", 10), ("difficulty", 10), ("depth", 10), ("provability_estimate", 10)]
    prune_threshold := 0
    stale_after_sec := 0 }

/-- One component of a niche key. `_feature_key` normally emits Python `int`
bin indices (`intE`); for an empty feature dict it returns `tuple([0.0] * 4)`,
whose components are the Python float `0.0`, modelled by `zeroFloat` (the only
float the source ever places in a key). -/
inductive KeyElem where
  | intE (n : ℤ) : KeyElem
  | zeroFloat : KeyElem
deriving DecidableEq

/-- A niche key: the tuple of key components returned by `_feature_key`. -/
abbrev NicheKey := List KeyElem

/-- The `_clamp(v, lo, hi) = max(lo, min(v, hi))` helper of `map_archive`. -/
def pyClamp (v lo hi : ℤ) : ℤ := max lo (min v hi)

/-- The numeric score the `_feature_key` loop extracts for dimension `d`, after
the `isinstance(val, (int, float))` filter and the NaN default: `none` when the
dimension is missing or non-numeric (the loop `continue`s in those cases),
`some 0` for NaN, the exact value otherwise. (The `float(val)` conversion
cannot fail on an int/float, so the `except` default is unreachable.) -/
def dimScore (fs : List (String × PyVal)) (d : String) : Option ℚ :=
  match pyGet fs d with
  | some (PyVal.intV n) => some ((n : ℚ))
  | some (PyVal.floatV (PyFloat.val q)) => some q
  | some (PyVal.floatV PyFloat.nan) => some 0
  | some (PyVal.strV _) => none
  | none => none

/-- Bin index for a raw score: clamp into `[0, 100]`, scale by the bin count,
truncate (the value is non-negative, so `int(...)` is `floor`), and clamp into
`[0, n_bins - 1]`. -/
def binIndex (q : ℚ) (nbins : ℤ) : ℤ :=
  pyClamp (Int.floor (max 0 (min q 100) / 100 * (nbins : ℚ))) 0 (nbins - 1)

/-- One iteration of the `_feature_key` loop for dimension `d`: the emitted key
component, or `none` when the loop skips the dimension. -/
def getDimIndex (cfg : MapConfig) (fs : List (String × PyVal)) (d : String) : Option KeyElem :=
  (dimScore fs d).map (fun q => KeyElem.intE (binIndex q (binsOf cfg d)))

/-- The key computed by `_feature_key` from `entry["map_scores"]`. An empty (or
missing) feature dict yields the fixed float sentinel `tuple([0.0] * 4)`;
otherwise one bin index per dimension whose value is present and numeric --
missing/non-numeric dimensions are dropped by the `continue`. Although the
function's docstring says it returns `None` for malformed input, no code path
does, so the model is total. -/
def featureKey (cfg : MapConfig) (fs : List (String × PyVal)) : NicheKey :=
  if fs.isEmpty then List.replicate 4 KeyElem.zeroFloat
  else cfg.dims.filterMap (getDimIndex cfg fs)

/-- An elite record / candidate entry as `map_archive` sees it: the fields the
archive reads, plus an opaque payload standing for every other key of the
dict. `id`, `timestamp` and `fitness_score` are `Option` because the dict may
lack them (`setdefault` / `.get` defaults in the source). -/
structure Entry where
  id : Option String
  timestamp : Option ℤ
  fitness_score : Option ℚ
  map_scores : List (String × PyVal)
  payload : String
deriving DecidableEq

/-- The in-memory archive state: the elite map and the dirty flag. -/
structure ArchiveState where
  elites : List (NicheKey × Entry)
  dirty : Bool
deriving DecidableEq

/-- The `entry.setdefault("id", ...)` / `entry.setdefault("timestamp", ...)`
step of `update_elites`: fill the missing fields from a fresh uuid and the
current time. -/
def fillDefaults (e : Entry) (newId : String) (now : ℤ) : Entry :=
  { e with id := some (e.id.getD newId), timestamp := some (e.timestamp.getD now) }

/-- The incumbent score `incumbent.get("fitness_score", float("-inf"))`:
`⊥` models `-inf`. -/
def incumbentScore (inc : Entry) : WithBot ℚ :=
  match inc.fitness_score with
  | none => (⊥ : WithBot ℚ)
  | some q => (q : WithBot ℚ)

/-- The replacement test of `update_elites`: `new_score > inc_score`, or
`new_score == inc_score and entry["timestamp"] > incumbent.get("timestamp", 0)`. -/
def eliteReplaces (newScore : ℚ) (newTs : ℤ) (inc : Entry) : Bool :=
  decide ((newScore : WithBot ℚ) > incumbentScore inc)
    || (decide ((newScore : WithBot ℚ) = incumbentScore inc)
        && decide (newTs > inc.timestamp.getD 0))

/-- The `update_elites(entry)` operation of `map_archive`. An entry without a
`fitness_score` is skipped with a warning before anything else happens: the
state (elite map and dirty flag) is returned unchanged and no exception can be
raised. Otherwise the entry's missing id/timestamp are filled in, its niche
key is computed (`_feature_key` never actually returns `None`, so the
`if key is None` guard of the source is dead), and the entry replaces the
incumbent iff the bin is empty or `eliteReplaces` holds. -/
def updateElites (cfg : MapConfig) (newId : String) (now : ℤ)
    (st : ArchiveState) (e0 : Entry) : ArchiveState :=
  match e0.fitness_score with
  | none => st
  | some newScore =>
    let e := fillDefaults e0 newId now
    let key := featureKey cfg e.map_scores
    match pyGet st.elites key with
    | none => { elites := dictSet st.elites key e, dirty := true }
    | some inc =>
      if eliteReplaces newScore (e0.timestamp.getD now) inc then
        { elites := dictSet st.elites key e, dirty := true }
      else st

/-- The keep-condition of `prune_underperformers` for one stored record:
the record survives unless its score is below `prune_threshold` or staleness
pruning is enabled (`stale_after_sec > 0`) and `now - timestamp >=
stale_after_sec`. -/
def pruneKeep (cfg : MapConfig) (now : ℤ) (rec : Entry) : Bool :=
  let score := rec.fitness_score.getD 0
  let ts := rec.timestamp.getD 0
  let isUnder := decide (score < cfg.prune_threshold)
  let isStale := decide (cfg.stale_after_sec > 0) && decide (now - ts ≥ cfg.stale_after_sec)
  !(isUnder || isStale)

/-- The `prune_underperformers()` operation on the elite map (the early return
on an empty map is the identity there too). -/
def pruneUnderperformers (cfg : MapConfig) (now : ℤ)
    (m : List (NicheKey × Entry)) : List (NicheKey × Entry) :=
  if m.isEmpty then m else m.filter (fun kr => pruneKeep cfg now kr.2)

/-- Decimal digits of `n`, least significant first (the repeated
divide-by-ten that `str(int)` performs). -/
def natDigitsRev (n : ℕ) : List Char :=
  if h : n < 10 then [Nat.digitChar n]
  else Nat.digitChar (n % 10) :: natDigitsRev (n / 10)
termination_by n
decreasing_by omega

/-- Characters of Python `str(n)` for a non-negative int: most significant
digit first, no leading zeros, `"0"` for zero. -/
def natStrChars (n : ℕ) : List Char := (natDigitsRev n).reverse

/-- Characters of Python `str(n)` for an int: a minus sign followed by the
digits when negative. -/
def intStrChars (n : ℤ) : List Char :=
  if n < 0 then '-' :: natStrChars n.natAbs else natStrChars n.natAbs

/-- Numeric value of a digit character. -/
def digitVal (c : Char) : ℕ := c.toNat - 48

/-- Python `int(s)` on a digit run: succeeds exactly on a non-empty all-digit
string. (Python also tolerates surrounding whitespace, a leading `+` and `_`
separators; none of those occur in strings produced by `str` of a key, which
is all the archive loader ever parses in the round-trip claims.) -/
def parseNatChars (cs : List Char) : Option ℕ :=
  if cs.isEmpty then none
  else if cs.all Char.isDigit then some (cs.foldl (fun a c => 10 * a + digitVal c) 0)
  else none

/-- Python `int(s)` including a leading minus sign. -/
def parseIntChars : List Char → Option ℤ
  | [] => none
  | c :: cs =>
    if c = '-' then (parseNatChars cs).map (fun m => -(m : ℤ))
    else (parseNatChars (c :: cs)).map (fun m => (m : ℤ))

/-- Characters of Python `str(x)` for one key component: decimal digits for an
int index, and `"0.0"` for the float `0.0` sentinel component. -/
def keyElemChars : KeyElem → List Char
  | KeyElem.intE n => intStrChars n
  | KeyElem.zeroFloat => ['0', '.', '0']

/-- Python `",".join(parts)` over character lists. -/
def joinComma : List (List Char) → List Char
  | [] => []
  | [p] => p
  | p :: ps => p ++ ',' :: joinComma ps

/-- Python `s.split(sep)` for a one-character separator, over character lists
(`"".split(sep) == [""]`). -/
def pySplitChar (sep : Char) : List Char → List (List Char)
  | [] => [[]]
  | c :: cs =>
    match pySplitChar sep cs with
    | [] => [[]]
    | p :: ps => if c = sep then [] :: p :: ps else (c :: p) :: ps

/-- Python `k_str.split(",")` as `load_existing` performs it. -/
def splitComma (cs : List Char) : List (List Char) := pySplitChar ',' cs

/-- The document `persist()` writes: the elite map keyed by
`",".join(map(str, key))`, each record serialized as JSON (the JSON layer is
value-faithful on these payloads, so records are carried unchanged). -/
def persistDoc (m : List (NicheKey × Entry)) : List (List Char × Entry) :=
  m.map (fun kr => (joinComma (kr.1.map keyElemChars), kr.2))

/-- The `tuple(int(x) for x in ...)` step of `load_existing()`: the whole key
fails (`ValueError`, caught and skipped) as soon as one component fails
`int(...)`. -/
def traverseKey : List (List Char) → Option NicheKey
  | [] => some []
  | p :: ps =>
    match parseIntChars p, traverseKey ps with
    | some z, some k => some (KeyElem.intE z :: k)
    | _, _ => none

/-- Key parsing in `load_existing()`:
`tuple(int(x) for x in k_str.split(","))`, `none` when any component fails
`int(...)`. -/
def parseKeyChars (cs : List Char) : Option NicheKey :=
  traverseKey (splitComma cs)

/-- The loading loop of `load_existing()` into the accumulator map: a document
entry whose key fails to parse is skipped with a warning, every other entry is
stored at its parsed key. -/
def loadDoc : List (List Char × Entry) → List (NicheKey × Entry) → List (NicheKey × Entry)
  | [], acc => acc
  | (ks, rec) :: rest, acc =>
    match parseKeyChars ks with
    | none => loadDoc rest acc
    | some k => loadDoc rest (dictSet acc k rec)

/-- One message of a verification-service response:
`{"severity": ..., "data": ...}`. `severity` is `Option` because the code
reads it with `m.get("severity")`; `data` is read with `m.get("data", "")`, so
a missing field is the empty string. -/
structure VMsg where
  severity : Option String
  data : String
deriving DecidableEq

/-- One per-snippet verification response:
`{"error": ..., "response": {"messages": [...]}}`. A missing/`None` response
is `none` (the code reads `entry.get("response", {}).get("messages", [])`). -/
structure VEntry where
  error : Option String
  response : Option (List VMsg)
deriving DecidableEq

/-- Messages of a response: `entry.get("response", {}).get("messages", [])`. -/
def entryMsgs (e : VEntry) : List VMsg := e.response.getD []

/-- The warning text marking an unresolved placeholder, as matched by
`_is_verified`. -/
def placeholderWarning : String := "declaration uses 'sorry'"

/-- Python `pat in s` substring test. -/
def strContains (s pat : String) : Bool := decide (pat.toList <:+: s.toList)

/-- The `_is_verified(entry, accept_sorry=...)` predicate
(`evaluator.ConjectureEvaluator._is_verified`): false iff the service call
errored, or some message has error severity, or (`accept_sorry` false) some
warning message reports an unresolved placeholder; true otherwise.
`acceptPlaceholders` is the `accept_sorry` keyword. -/
def isVerified (e : VEntry) (acceptPlaceholders : Bool) : Bool :=
  if e.error.isSome then false
  else if (entryMsgs e).any (fun m => m.severity == some "error") then false
  else if !acceptPlaceholders
      && (entryMsgs e).any
        (fun m => m.severity == some "warning" && strContains m.data placeholderWarning) then
    false
  else true

/-- The `proofs[i]["verified"]` list built by
`ConjectureEvaluator._evaluate_proofs_passk` for one candidate: the proofs of
the zip of results and proof tails whose result verifies. -/
def verifiedProofs (acceptPlaceholders : Bool) (resList : List VEntry)
    (proofs : List String) : List String :=
  (resList.zip proofs).filterMap
    (fun rp => if isVerified rp.1 acceptPlaceholders then some rp.2 else none)

/-- The `proofs[i]["unverified"]` list of `_evaluate_proofs_passk`. -/
def unverifiedProofs (acceptPlaceholders : Bool) (resList : List VEntry)
    (proofs : List String) : List String :=
  (resList.zip proofs).filterMap
    (fun rp => if isVerified rp.1 acceptPlaceholders then none else some rp.2)

/-- Python `min(xs, key=len)`: the first element of minimal length (`none` on
an empty list, where Python raises). -/
def pyMinByLen : List String → Option String
  | [] => none
  | x :: xs => some (xs.foldl (fun b p => if p.length < b.length then p else b) x)

/-- The stage-4 classification bit of `ConjectureEvaluator.evaluate`:
`provable = len(proofs[conj_idx]["verified"]) > 0` (with `accept_sorry=False`,
as stage 4 passes it). -/
def nonTrivialProvable (resList : List VEntry) (proofs : List String) : Bool :=
  !(verifiedProofs false resList proofs).isEmpty

/-- The proof retained by stage 4 for a provable candidate:
`min(proofs[conj_idx]["verified"], key=len)`; `none` when nothing verified
(the code then records the `"sorry"` placeholder instead of a proof). -/
def retainedProof (resList : List VEntry) (proofs : List String) : Option String :=
  pyMinByLen (verifiedProofs false resList proofs)

/-- One flat response as `KiminaPool.verify_proofs_passk` regroups it: the two
possible id fields and an opaque payload standing for the rest of the dict. -/
structure PResp where
  customId : Option String
  idField : Option String
  payload : String
deriving DecidableEq

/-- The `{}` padding dict appended by the regrouping loop. -/
def emptyResp : PResp := { customId := none, idField := none, payload := "" }

/-- Python truthiness of an optional string (`None` and `""` are falsy). -/
def pyTruthy (s : Option String) : Bool :=
  match s with
  | none => false
  | some s => !s.toList.isEmpty

/-- The id the regrouping loop matches:
`str(r.get("custom_id") or r.get("id"))`. -/
def cidOf (r : PResp) : String :=
  match (if pyTruthy r.customId then r.customId else r.idField) with
  | some s => s
  | none => "None"

/-- The `^(\d+):(\d+)$` match of the regrouping loop: exactly one colon, a
non-empty digit run on each side (`parseNatChars` models `int` on a `\d+`
group). Characters are used directly so the parse is structural. -/
def parseCid (s : String) : Option (ℕ × ℕ) :=
  match pySplitChar ':' s.toList with
  | [a, b] =>
    match parseNatChars a, parseNatChars b with
    | some i, some j => some (i, j)
    | _, _ => none
  | _ => none

/-- The `while len(grouped[i]) <= j: grouped[i].append({})` padding followed by
`grouped[i][j] = r`, on one row. -/
def padSet (l : List PResp) (j : ℕ) (r : PResp) : List PResp :=
  (l ++ List.replicate (j + 1 - l.length) emptyResp).set j r

/-- How a regrouping pass can abort: the fatal
`RuntimeError("Unexpected custom_id shape: ...")` on an unparseable id, or the
`IndexError` Python would raise on `grouped[i]` for an out-of-range row. -/
inductive GroupError where
  | badId (cid : String) : GroupError
  | rowIndex (i : ℕ) : GroupError
deriving DecidableEq

/-- The regrouping loop of `verify_proofs_passk` over the flat results: abort
on the first unparseable id (or out-of-range row), else place each response at
`grouped[i][j]`. -/
def groupAux : List PResp → List (List PResp) → Except GroupError (List (List PResp))
  | [], g => Except.ok g
  | r :: rest, g =>
    match parseCid (cidOf r) with
    | none => Except.error (GroupError.badId (cidOf r))
    | some (i, j) =>
      if i < g.length then groupAux rest (g.set i (padSet (g.getD i []) j r))
      else Except.error (GroupError.rowIndex i)

/-- The whole regrouping step of `verify_proofs_passk` for `n` candidates:
start from `[[] for _ in range(len(conjectures))]` and fold the flat results.
Either the fully grouped `n`-row structure, or an error and no partial result. -/
def verifyPasskGroup (n : ℕ) (flat : List PResp) : Except GroupError (List (List PResp)) :=
  groupAux flat (List.replicate n [])

/-- The `_qbin(x)` quantizer of `FitnessEvaluator`: clamp to `[0, 100]`, round
to the nearest multiple of 5 with a downward bias at `.5`
(`int(5 * math.floor(x / 5.0 + 0.499))`), clamp again. -/
def qbin (x : ℚ) : ℤ :=
  let y := max 0 (min 100 x)
  let q := 5 * Int.floor (y / 5 + (499 : ℚ) / 1000)
  max 0 (min 100 q)

/-- `_qbin` applied to an already-integer score (the second pass inside
`_apply_hard_caps`). -/
def qbinZ (n : ℤ) : ℤ := qbin (n : ℚ)

/-- The `_apply_hard_caps(scores, flags)` rules, returning the re-quantized
`(novelty, provability_estimate, depth, difficulty)`. -/
def applyHardCaps (novelty prov depth diff : ℤ)
    (ill lf restate trivialPat : Bool) : ℤ × ℤ × ℤ × ℤ :=
  let novelty1 := if ill then min novelty 5 else novelty
  let prov1 := if ill then 0 else prov
  let depth1 := if ill then min depth 10 else depth
  let diff1 := if ill then min diff 10 else diff
  let prov2 := if lf && !ill then min prov1 30 else prov1
  let novelty2 := if restate || trivialPat then min novelty1 10 else novelty1
  let depth2 := if restate || trivialPat then min depth1 20 else depth1
  let diff2 := if restate || trivialPat then min diff1 30 else diff1
  (qbinZ novelty2, qbinZ prov2, qbinZ depth2, qbinZ diff2)

/-- The per-candidate score pipeline of `FitnessEvaluator.evaluate_fitness`
(lines 171-192): merge the likely-false flag, sanitize the judged scores with
`_qbin`, apply the proof-based provability overrides (verified ⇒ 100, else
likely-false ⇒ 0), then apply the hard caps. Returns the final sanitized
`(novelty, provability_estimate, depth, difficulty)`. -/
def fitnessScores (novIn provIn depthIn diffIn : ℚ)
    (illT lfLLM restate trivialPat : Bool)
    (negVerified : Bool) (verifiedFlag : Bool) : ℤ × ℤ × ℤ × ℤ :=
  let lf := lfLLM || negVerified
  let nov0 := qbin novIn
  let prov0 := qbin provIn
  let depth0 := qbin depthIn
  let diff0 := qbin diffIn
  let prov1 := if verifiedFlag then 100 else if lf then 0 else prov0
  applyHardCaps nov0 prov1 depth0 diff0 illT lf restate trivialPat

/-- The `provability_estimate` the fitness record finally exposes. -/
def finalProvability (novIn provIn depthIn diffIn : ℚ)
    (illT lfLLM restate trivialPat : Bool)
    (negVerified : Bool) (verifiedFlag : Bool) : ℤ :=
  (fitnessScores novIn provIn depthIn diffIn illT lfLLM restate trivialPat
    negVerified verifiedFlag).2.1

/-- The reserved exploration arm id `NOVEL_ARM = "_NOVEL_"` of `sampler`. -/
def novelArm : String := "_NOVEL_"

/-- `_op_stats.get(op, [0, 0])`: the recorded `(wins, tries)` for an arm,
defaulting to `(0, 0)` for an arm with no stats. -/
def statsGet (stats : List (String × ℤ × ℤ)) (op : String) : ℤ × ℤ :=
  (pyGet stats op).getD (0, 0)

/-- `update_operator_stats(operator_id, reward)`: wins grow by one exactly when
`reward > 0`, tries always grow by one. -/
def updateOperatorStats (stats : List (String × ℤ × ℤ)) (op : String)
    (reward : ℚ) : List (String × ℤ × ℤ) :=
  let ws := statsGet stats op
  dictSet stats op (ws.1 + (if reward > 0 then 1 else 0), ws.2 + 1)

/-- The exploration probability of `choose_operator`:
`epsilon = max(P_NOVEL_FLOOR, 0.25 * math.exp(-step / 5000))` with
`P_NOVEL_FLOOR = 0.2`. -/
noncomputable def epsilonOf (step : ℕ) : ℝ :=
  max 0.2 (0.25 * Real.exp (-(step : ℝ) / 5000))

/-- The Thompson draws of `choose_operator` over `operators + [NOVEL_ARM]`:
arm `i` (with recorded `(wins, tries)`, default `(0, 0)`) gets the sample
`beta i (wins + 1) (tries - wins + 1)`, where `beta` is the stream of
`random.betavariate` outcomes indexed by call position (so that independent
draws with equal parameters stay independent). -/
def drawsOf (stats : List (String × ℤ × ℤ)) (operators : List String)
    (beta : ℕ → ℤ → ℤ → ℝ) : List (String × ℝ) :=
  ((operators ++ [novelArm]).enum).map (fun p =>
    let ws := statsGet stats p.2
    (p.2, beta p.1 (ws.1 + 1) (ws.2 - ws.1 + 1)))

/-- The arm selection `draws.sort(key=lambda x: x[1], reverse=True);
return draws[0][0]`: a stable descending sort's head is the earliest element
attaining the maximal sample, which this fold computes directly (the
accumulator is replaced only on a strictly larger sample). The `[]` case is
unreachable: the draw list always holds the NOVEL arm. -/
noncomputable def pickBest : List (String × ℝ) → String
  | [] => novelArm
  | d :: ds => (ds.foldl (fun b x => if x.2 > b.2 then x else b) d).1

/-- `choose_operator(operators, step)` with the randomness made explicit: `u`
is the `random.random()` draw and `beta` the stream of `random.betavariate`
outcomes. Force-select the NOVEL arm when `u < epsilon`, else Thompson-sample
over the known operators plus the NOVEL arm. -/
noncomputable def chooseOperator (stats : List (String × ℤ × ℤ))
    (operators : List String) (step : ℕ) (u : ℝ) (beta : ℕ → ℤ → ℤ → ℝ) : String :=
  if u < epsilonOf step then novelArm
  else pickBest (drawsOf stats operators beta)

/-- Concrete-entry helper for witness and counterexample statements (the
`payload` stands for the other keys of the dict and is irrelevant here). -/
def mkEntry (i : Option String) (ts : Option ℤ) (fit : Option ℚ)
    (fs : List (String × PyVal)) : Entry :=
  { id := i, timestamp := ts, fitness_score := fit, map_scores := fs, payload := "" }

/-- Predicate used to state key-shape hypotheses: the component is an integer
bin index (not the float sentinel). -/
def isIntElem : KeyElem → Bool
  | KeyElem.intE _ => true
  | KeyElem.zeroFloat => false

/-- The response stored at row `i`, column `j` of a grouped structure
(`none` when out of range): `grouped[i][j]` as an observation. -/
def cellAt (g : List (List PResp)) (i j : ℕ) : Option PResp :=
  (g[i]?.getD [])[j]?

theorem pyGet_dictSet_self {α β : Type} [DecidableEq α] (m : List (α × β)) (k : α) (v : β) :
    pyGet (dictSet m k v) k = some v := by
  induction m with
  | nil => simp [pyGet, dictSet]
  | cons p rest ih =>
    by_cases h : p.1 = k
    · simp [dictSet, h, pyGet]
    · simp only [dictSet, if_neg h]
      simpa [pyGet, List.find?, h] using ih

theorem dictSet_eq_append_of_not_mem {α β : Type} [DecidableEq α]
    (m : List (α × β)) (k : α) (v : β) (h : k ∉ m.map Prod.fst) :
    dictSet m k v = m ++ [(k, v)] := by
  induction m with
  | nil => simp [dictSet]
  | cons p rest ih =>
    simp only [List.map_cons, List.mem_cons] at h
    push_neg at h
    have hne : ¬(p.1 = k) := fun hh => h.1 hh.symm
    simp only [dictSet, if_neg hne, List.cons_append]
    exact congrArg (p :: ·) (ih h.2)


/-- C10: calling `update_elites` with an entry that has no `fitness_score`
field is a safe no-op at the public interface: the guard returns before any
other statement runs, so the elite map and the dirty flag are unchanged and no
exception can be raised (the model is a total function and the returned state
is exactly the input state). -/
theorem C10_update_elites_missing_fitness (cfg : MapConfig) (newId : String) (now : ℤ)
    (st : ArchiveState) (e : Entry) (h : e.fitness_score = none) :
    updateElites cfg newId now st e = st := by
  simp [updateElites, h]

theorem C10_update_elites_missing_fitness_witness :
    updateElites defaultCfg "uuid-0" 7
      { elites := [([KeyElem.intE 3], mkEntry (some "x") (some 1) (some 10) [])], dirty := false }
      (mkEntry none none none [("novelty", PyVal.intV 5)])
    = { elites := [([KeyElem.intE 3], mkEntry (some "x") (some 1) (some 10) [])], dirty := false } :=
  C10_update_elites_missing_fitness defaultCfg "uuid-0" 7 _ _ rfl

theorem isVerified_eq_not (e : VEntry) (acc : Bool) :
    isVerified e acc =
      !(e.error.isSome
        || (entryMsgs e).any (fun m => m.severity == some "error")
        || (!acc && (entryMsgs e).any
             (fun m => m.severity == some "warning" && strContains m.data placeholderWarning))) := by
  unfold isVerified
  split_ifs <;> simp_all <;> cases acc <;> simp_all

/-- C4: the verified predicate for one (statement, completion) pair is false
iff the service call errored (`error` non-null), or some response message has
error severity, or `accept_sorry` is false and some response message is a
warning whose text contains the unresolved-placeholder marker
(`"declaration uses 'sorry'"`); in every other case it is true (the predicate
is a total Boolean function, so the two directions are exhaustive). -/
theorem C4_is_verified_false_iff (e : VEntry) (acc : Bool) :
    isVerified e acc = false ↔
      (e.error ≠ none
        ∨ (∃ m ∈ entryMsgs e, m.severity = some "error")
        ∨ (acc = false ∧ ∃ m ∈ entryMsgs e,
             m.severity = some "warning" ∧ strContains m.data placeholderWarning = true)) := by
  rw [isVerified_eq_not]
  have hflip : ∀ b : Bool, ((!b) = false) = (b = true) := by intro b; simp
  rw [hflip]
  simp only [Bool.or_eq_true, Bool.and_eq_true, Bool.not_eq_true', List.any_eq_true,
    beq_iff_eq, Option.isSome_iff_ne_none, and_assoc, or_assoc]

/-- C6 counterexample: a candidate the cascade verified, which the judge also
flagged `ill_typed`, ends with `provability_estimate = 0`, not 100 — the hard
caps run *after* the verified ⇒ 100 override and undo it, so the override is
not authoritative "regardless" of what the judge returned. (Arguments:
judged scores 50/50/50/50, flags `ill_typed = true`, all others false,
`negVerified = false`, `verifiedFlag = true`.) -/
theorem C6_counterexample :
    ¬(finalProvability 50 50 50 50 true false false false false true = 100)
    ∧ finalProvability 50 50 50 50 true false false false false true = 0 := by
  constructor <;> norm_num [finalProvability, fitnessScores, applyHardCaps, qbinZ, qbin]

/-- C6 (amended): the cascade's outcome overrides the judge's raw
`provability_estimate` score, but the judge's Boolean flags still apply: a
verified candidate gets a final `provability_estimate` of 100 for every judged
score, provided the judge set neither `ill_typed` nor `likely_false` (whose
hard caps run after the override); a candidate classified likely-false by the
negation search gets 0 regardless of every judged score and flag. -/
theorem C6_provability_override_amended :
    (∀ (novIn provIn depthIn diffIn : ℚ) (restate trivialPat : Bool),
       finalProvability novIn provIn depthIn diffIn false false restate trivialPat
         false true = 100)
    ∧ (∀ (novIn provIn depthIn diffIn : ℚ) (illT lfLLM restate trivialPat : Bool),
       finalProvability novIn provIn depthIn diffIn illT lfLLM restate trivialPat
         true false = 0) := by
  constructor
  · intro novIn provIn depthIn diffIn restate trivialPat
    show qbinZ 100 = 100
    norm_num [qbinZ, qbin]
  · intro novIn provIn depthIn diffIn illT lfLLM restate trivialPat
    cases illT <;> cases lfLLM <;> show qbinZ _ = 0 <;> norm_num [qbinZ, qbin]

/-- C8 counterexample: with `prune_threshold = 0`, `stale_after_sec = 10`,
`now = 10`, a stored elite with fitness 50 and timestamp 0 has age exactly 10:
its score is not below the threshold and its age does not (strictly) exceed
the staleness window, yet `prune_underperformers` removes it — the code prunes
at `now - ts >= stale_after_sec`, not strictly greater. -/
theorem C8_counterexample :
    pruneUnderperformers
        { dims := [], bins := [], prune_threshold := 0, stale_after_sec := 10 } 10
        [([KeyElem.intE 0], mkEntry (some "a") (some 0) (some 50) [])] = []
    ∧ ¬((50 : ℚ) < 0) ∧ ¬((10 : ℤ) - 0 > 10) := by
  refine ⟨?_, by decide, by decide⟩
  decide

/-- C8 (amended): `prune_underperformers` removes exactly the records whose
`fitness_score` (default 0) is strictly below the configured threshold or
whose age `now - timestamp` is at least (meets or exceeds) the configured
staleness window, with `stale_after_sec = 0` disabling staleness pruning
entirely; in particular with `prune_threshold = 50` and `stale_after_sec = 0`,
an elite with fitness 40 is removed and one with fitness 60 is retained
regardless of age. -/
theorem C8_prune_amended :
    (∀ (cfg : MapConfig) (now : ℤ) (m : List (NicheKey × Entry)) (kr : NicheKey × Entry),
       kr ∈ pruneUnderperformers cfg now m ↔
         kr ∈ m ∧ ¬(kr.2.fitness_score.getD 0 < cfg.prune_threshold
             ∨ (0 < cfg.stale_after_sec ∧ cfg.stale_after_sec ≤ now - kr.2.timestamp.getD 0)))
    ∧ (∀ (cfg : MapConfig) (now : ℤ) (m : List (NicheKey × Entry)) (kr : NicheKey × Entry),
       cfg.stale_after_sec = 0 →
         (kr ∈ pruneUnderperformers cfg now m ↔
           kr ∈ m ∧ ¬(kr.2.fitness_score.getD 0 < cfg.prune_threshold)))
    ∧ pruneUnderperformers
        { dims := [], bins := [], prune_threshold := 50, stale_after_sec := 0 } 1000000
        [([KeyElem.intE 0], mkEntry (some "a") (some 0) (some 40) []),
         ([KeyElem.intE 1], mkEntry (some "b") (some 0) (some 60) [])]
      = [([KeyElem.intE 1], mkEntry (some "b") (some 0) (some 60) [])] := by
  have hmain : ∀ (cfg : MapConfig) (now : ℤ) (m : List (NicheKey × Entry))
      (kr : NicheKey × Entry),
      kr ∈ pruneUnderperformers cfg now m ↔
        kr ∈ m ∧ ¬(kr.2.fitness_score.getD 0 < cfg.prune_threshold
            ∨ (0 < cfg.stale_after_sec ∧ cfg.stale_after_sec ≤ now - kr.2.timestamp.getD 0)) := by
    intro cfg now m kr
    unfold pruneUnderperformers
    by_cases hm : m.isEmpty
    · rw [if_pos hm]
      rw [List.isEmpty_iff] at hm
      subst hm
      simp
    · rw [if_neg hm, List.mem_filter]
      unfold pruneKeep
      constructor
      · rintro ⟨hmem, hkeep⟩
        refine ⟨hmem, ?_⟩
        simp only [Bool.not_eq_true', Bool.or_eq_false_iff, decide_eq_false_iff_not,
          Bool.and_eq_false_iff, Bool.not_eq_true] at hkeep
        rcases hkeep with ⟨hunder, hstale⟩
        rintro (h | ⟨h1, h2⟩)
        · exact hunder h
        · rcases hstale with h' | h'
          · exact absurd h1 (by simpa using h')
          · exact absurd h2 (by simpa using h')
      · rintro ⟨hmem, hcond⟩
        push_neg at hcond
        refine ⟨hmem, ?_⟩
        simp only [Bool.not_eq_true', Bool.or_eq_false_iff, decide_eq_false_iff_not,
          Bool.and_eq_false_iff, Bool.not_eq_true]
        refine ⟨not_lt.mpr hcond.1, ?_⟩
        by_cases hs : 0 < cfg.stale_after_sec
        · right
          simpa using hcond.2 hs
        · left
          simpa using hs
  refine ⟨hmain, ?_, ?_⟩
  · intro cfg now m kr h0
    rw [hmain]
    simp [h0]
  · decide

theorem C8_prune_amended_witness :
    ([KeyElem.intE 1], mkEntry (some "b") (some 0) (some 60) []) ∈
      pruneUnderperformers
        { dims := [], bins := [], prune_threshold := 50, stale_after_sec := 0 } 1000000
        [([KeyElem.intE 0], mkEntry (some "a") (some 0) (some 40) []),
         ([KeyElem.intE 1], mkEntry (some "b") (some 0) (some 60) [])] :=
  (C8_prune_amended.2.1 _ 1000000 _ _ rfl).mpr ⟨by decide, by decide⟩

/-- C1: for every archive state and entry carrying a `fitness_score`,
`update_elites` replaces the incumbent at the entry's niche key iff the
entry's score is strictly greater, or the scores are equal and the entry's
timestamp is strictly greater; otherwise (in particular on re-inserting a
record with identical score and timestamp) the whole state — stored incumbent
included — is unchanged; and an empty niche is always filled. -/
theorem C1_update_elites_replacement (cfg : MapConfig) (newId : String) (now : ℤ)
    (st : ArchiveState) (e : Entry) (q : ℚ) (ts : ℤ)
    (hq : e.fitness_score = some q) (hts : e.timestamp = some ts) :
    (∀ inc qi ti, pyGet st.elites (featureKey cfg e.map_scores) = some inc →
       inc.fitness_score = some qi → inc.timestamp = some ti →
       ((q > qi ∨ (q = qi ∧ ts > ti)) →
          updateElites cfg newId now st e =
            { elites := dictSet st.elites (featureKey cfg e.map_scores)
                (fillDefaults e newId now), dirty := true })
       ∧ (¬(q > qi ∨ (q = qi ∧ ts > ti)) → updateElites cfg newId now st e = st))
    ∧ (pyGet st.elites (featureKey cfg e.map_scores) = none →
        updateElites cfg newId now st e =
          { elites := dictSet st.elites (featureKey cfg e.map_scores)
              (fillDefaults e newId now), dirty := true }
        ∧ pyGet (updateElites cfg newId now st e).elites (featureKey cfg e.map_scores) =
            some (fillDefaults e newId now)) := by
  have hms : (fillDefaults e newId now).map_scores = e.map_scores := rfl
  constructor
  · intro inc qi ti hinc hqi hti
    have hts' : e.timestamp.getD now = ts := by rw [hts]; rfl
    have hscore : incumbentScore inc = (qi : WithBot ℚ) := by
      unfold incumbentScore; rw [hqi]
    have hrep : eliteReplaces q (e.timestamp.getD now) inc
        = decide (q > qi ∨ (q = qi ∧ ts > ti)) := by
      unfold eliteReplaces
      rw [hts', hscore, hti]
      simp
    constructor
    · intro hc
      simp only [updateElites, hq, hms, hinc, hrep]
      simp [hc]
    · intro hc
      simp only [updateElites, hq, hms, hinc, hrep]
      simp [hc]
  · intro hnone
    have hupd : updateElites cfg newId now st e =
        { elites := dictSet st.elites (featureKey cfg e.map_scores)
            (fillDefaults e newId now), dirty := true } := by
      simp only [updateElites, hq, hms, hnone]
    exact ⟨hupd, by rw [hupd]; exact pyGet_dictSet_self _ _ _⟩

theorem C1_update_elites_replacement_witness :
    updateElites defaultCfg "uuid-1" 99
      { elites := [(List.replicate 4 KeyElem.zeroFloat,
          mkEntry (some "old") (some 5) (some 40) [])], dirty := false }
      (mkEntry (some "new") (some 10) (some 50) [])
    = { elites := dictSet
          [(List.replicate 4 KeyElem.zeroFloat, mkEntry (some "old") (some 5) (some 40) [])]
          (featureKey defaultCfg [])
          (fillDefaults (mkEntry (some "new") (some 10) (some 50) []) "uuid-1" 99),
        dirty := true } :=
  ((C1_update_elites_replacement defaultCfg "uuid-1" 99 _ _ 50 10 rfl rfl).1
    (mkEntry (some "old") (some 5) (some 40) []) 40 5 (by decide) rfl rfl).1
    (Or.inl (by norm_num))

theorem foldlMinLen_spec (xs : List String) (b : String) :
    (xs.foldl (fun acc p => if p.length < acc.length then p else acc) b = b
      ∨ xs.foldl (fun acc p => if p.length < acc.length then p else acc) b ∈ xs)
    ∧ (xs.foldl (fun acc p => if p.length < acc.length then p else acc) b).length ≤ b.length
    ∧ ∀ x ∈ xs, (xs.foldl (fun acc p => if p.length < acc.length then p else acc) b).length
        ≤ x.length := by
  induction xs generalizing b with
  | nil => simp
  | cons y ys ih =>
    simp only [List.foldl_cons]
    obtain ⟨hmem, hlen, hall⟩ := ih (if y.length < b.length then y else b)
    have hb2len : (if y.length < b.length then y else b).length ≤ b.length := by
      split_ifs with h
      · exact le_of_lt h
      · exact le_refl _
    have hb2y : (if y.length < b.length then y else b).length ≤ y.length := by
      split_ifs with h
      · exact le_refl _
      · exact le_of_not_lt h
    refine ⟨?_, le_trans hlen hb2len, ?_⟩
    · rcases hmem with h | h
      · rw [h]
        split_ifs with hy
        · exact Or.inr (List.mem_cons_self _ _)
        · exact Or.inl rfl
      · exact Or.inr (List.mem_cons_of_mem _ h)
    · intro x hx
      rcases List.mem_cons.mp hx with rfl | hx2
      · exact le_trans hlen hb2y
      · exact hall x hx2

theorem pyMinByLen_spec (l : List String) (p : String) (h : pyMinByLen l = some p) :
    p ∈ l ∧ ∀ x ∈ l, p.length ≤ x.length := by
  cases l with
  | nil => simp [pyMinByLen] at h
  | cons x xs =>
    simp only [pyMinByLen, Option.some_inj] at h
    obtain ⟨hmem, hlen, hall⟩ := foldlMinLen_spec xs x
    subst h
    constructor
    · rcases hmem with h | h
      · rw [h]; exact List.mem_cons_self _ _
      · exact List.mem_cons_of_mem _ h
    · intro y hy
      rcases List.mem_cons.mp hy with rfl | hy2
      · exact hlen
      · exact hall y hy2

theorem pyMinByLen_isSome (l : List String) : (pyMinByLen l).isSome ↔ l ≠ [] := by
  cases l <;> simp [pyMinByLen]

theorem mem_verifiedProofs (acc : Bool) (resList : List VEntry) (proofs : List String)
    (p : String) :
    p ∈ verifiedProofs acc resList proofs ↔
      ∃ j, ∃ hj : j < (resList.zip proofs).length,
        isVerified ((resList.zip proofs).get ⟨j, hj⟩).1 acc = true
        ∧ ((resList.zip proofs).get ⟨j, hj⟩).2 = p := by
  unfold verifiedProofs
  rw [List.mem_filterMap]
  constructor
  · rintro ⟨a, ha, hfa⟩
    by_cases hv : isVerified a.1 acc = true
    · rw [if_pos hv] at hfa
      obtain ⟨n, hget⟩ := List.mem_iff_get.mp ha
      refine ⟨n.1, n.2, ?_, ?_⟩
      · rw [Fin.eta, hget]; exact hv
      · rw [Fin.eta, hget]; exact Option.some_inj.mp hfa
    · rw [if_neg hv] at hfa
      exact absurd hfa (by simp)
  · rintro ⟨j, hj, hv, hp⟩
    refine ⟨(resList.zip proofs).get ⟨j, hj⟩, List.get_mem _ _ _, ?_⟩
    rw [if_pos hv, hp]

/-- C2: for a candidate reaching full proof search with k completions (the
result list and the proof-tail list are aligned, one result per completion),
the candidate is classified NonTriviallyProvable iff at least one completion
satisfies the verified predicate, the classification holds iff a proof is
retained, and the retained proof is a shortest verified completion: it is one
of the verified completions and its length is minimal among them. -/
theorem C2_passk_classification (resList : List VEntry) (proofs : List String)
    (hlen : resList.length = proofs.length) :
    (nonTrivialProvable resList proofs = true ↔
      ∃ j, ∃ hj : j < resList.length, isVerified (resList.get ⟨j, hj⟩) false = true)
    ∧ ((retainedProof resList proofs).isSome ↔ nonTrivialProvable resList proofs = true)
    ∧ (∀ p, retainedProof resList proofs = some p →
        (∃ j, ∃ hj : j < resList.length, ∃ hj2 : j < proofs.length,
           isVerified (resList.get ⟨j, hj⟩) false = true ∧ proofs.get ⟨j, hj2⟩ = p)
        ∧ (∀ j (hj : j < resList.length) (hj2 : j < proofs.length),
            isVerified (resList.get ⟨j, hj⟩) false = true →
            p.length ≤ (proofs.get ⟨j, hj2⟩).length)) := by
  have hzlen : (resList.zip proofs).length = resList.length := by
    simp [List.length_zip, hlen]
  have hfst : ∀ j (hj : j < (resList.zip proofs).length),
      ((resList.zip proofs).get ⟨j, hj⟩).1 = resList.get ⟨j, by omega⟩ := by
    intro j hj
    simp [List.get_eq_getElem, List.getElem_zip]
  have hsnd : ∀ j (hj : j < (resList.zip proofs).length),
      ((resList.zip proofs).get ⟨j, hj⟩).2 = proofs.get ⟨j, by rw [← hlen]; omega⟩ := by
    intro j hj
    simp [List.get_eq_getElem, List.getElem_zip]
  have hprov : nonTrivialProvable resList proofs = true ↔
      ∃ j, ∃ hj : j < resList.length, isVerified (resList.get ⟨j, hj⟩) false = true := by
    unfold nonTrivialProvable
    rw [Bool.not_eq_true']
    constructor
    · intro hne
      have : verifiedProofs false resList proofs ≠ [] := by
        intro hnil
        rw [hnil] at hne
        simp at hne
      obtain ⟨p, hp⟩ := List.exists_mem_of_ne_nil _ this
      obtain ⟨j, hj, hv, -⟩ := (mem_verifiedProofs false resList proofs p).mp hp
      refine ⟨j, by omega, ?_⟩
      rw [← hfst j hj]
      exact hv
    · rintro ⟨j, hj, hv⟩
      have hj3 : j < (resList.zip proofs).length := by omega
      have hp : ((resList.zip proofs).get ⟨j, hj3⟩).2 ∈ verifiedProofs false resList proofs := by
        rw [mem_verifiedProofs]
        refine ⟨j, hj3, ?_, rfl⟩
        rw [hfst j hj3]
        exact hv
      cases hempty : (verifiedProofs false resList proofs).isEmpty
      · rfl
      · rw [List.isEmpty_iff] at hempty
        rw [hempty] at hp
        simp at hp
  refine ⟨hprov, ?_, ?_⟩
  · rw [retainedProof, pyMinByLen_isSome, hprov]
    constructor
    · intro hne
      obtain ⟨p, hp⟩ := List.exists_mem_of_ne_nil _ hne
      obtain ⟨j, hj, hv, -⟩ := (mem_verifiedProofs false resList proofs p).mp hp
      refine ⟨j, by omega, ?_⟩
      rw [← hfst j hj]
      exact hv
    · rintro ⟨j, hj, hv⟩
      have hj3 : j < (resList.zip proofs).length := by omega
      have hp : ((resList.zip proofs).get ⟨j, hj3⟩).2 ∈ verifiedProofs false resList proofs := by
        rw [mem_verifiedProofs]
        refine ⟨j, hj3, ?_, rfl⟩
        rw [hfst j hj3]
        exact hv
      intro hnil
      rw [hnil] at hp
      simp at hp
  · intro p hp
    obtain ⟨hmem, hmin⟩ := pyMinByLen_spec _ p hp
    obtain ⟨j, hj, hv, hjp⟩ := (mem_verifiedProofs false resList proofs p).mp hmem
    constructor
    · refine ⟨j, by omega, by rw [← hlen]; omega, ?_, ?_⟩
      · rw [← hfst j hj]; exact hv
      · rw [← hsnd j hj]; exact hjp
    · intro i hi hi2 hvi
      have hi3 : i < (resList.zip proofs).length := by omega
      have hpi : ((resList.zip proofs).get ⟨i, hi3⟩).2 ∈ verifiedProofs false resList proofs := by
        rw [mem_verifiedProofs]
        refine ⟨i, hi3, ?_, rfl⟩
        rw [hfst i hi3]
        exact hvi
      have := hmin _ hpi
      rw [hsnd i hi3] at this
      exact this

theorem C2_passk_classification_witness :
    nonTrivialProvable
      [{ error := none, response := none }, { error := some "boom", response := none }]
      ["longproof", "ab"] = true :=
  ((C2_passk_classification
      [{ error := none, response := none }, { error := some "boom", response := none }]
      ["longproof", "ab"] rfl).1).mpr ⟨0, by decide, by decide⟩

theorem binIndex_range (q : ℚ) (b : ℤ) (hb : 1 ≤ b) :
    0 ≤ binIndex q b ∧ binIndex q b ≤ b - 1 := by
  unfold binIndex pyClamp
  omega

theorem forall2_filter_filterMap (cfg : MapConfig) (fs : List (String × PyVal)) :
    ∀ dims : List String, (∀ d ∈ dims, 1 ≤ binsOf cfg d) →
      List.Forall₂ (fun d el => ∃ n : ℤ, el = KeyElem.intE n ∧ 0 ≤ n ∧ n ≤ binsOf cfg d - 1)
        (dims.filter (fun d => (dimScore fs d).isSome))
        (dims.filterMap (getDimIndex cfg fs)) := by
  intro dims
  induction dims with
  | nil => intro _; simp
  | cons d rest ih =>
    intro hb
    have hbd : 1 ≤ binsOf cfg d := hb d (List.mem_cons_self _ _)
    have hbrest : ∀ x ∈ rest, 1 ≤ binsOf cfg x := fun x hx => hb x (List.mem_cons_of_mem _ hx)
    cases hd : dimScore fs d with
    | none =>
      have h1 : (dimScore fs d).isSome = false := by rw [hd]; rfl
      have h2 : getDimIndex cfg fs d = none := by rw [getDimIndex, hd]; rfl
      simpa [List.filter_cons, h1, List.filterMap_cons, h2] using ih hbrest
    | some q =>
      have h1 : (dimScore fs d).isSome = true := by rw [hd]; rfl
      have h2 : getDimIndex cfg fs d = some (KeyElem.intE (binIndex q (binsOf cfg d))) := by
        rw [getDimIndex, hd]; rfl
      rw [List.filter_cons, if_pos h1, List.filterMap_cons, h2]
      exact List.Forall₂.cons
        ⟨binIndex q (binsOf cfg d), rfl, binIndex_range q _ hbd⟩ (ih hbrest)

/-- C3 counterexample: with the default configuration (four dimensions), an
entry whose `novelty` feature is the non-numeric string `"high"` (the other
three features numeric) gets a niche key with only three bin indices — the
loop drops the malformed dimension instead of defaulting its score to 0, so
the key does not have one bin index per configured dimension. -/
theorem C3_counterexample :
    (featureKey defaultCfg
        [("novelty", PyVal.strV "high"), ("difficulty", PyVal.intV 50),
         ("depth", PyVal.intV 50), ("provability_estimate", PyVal.intV 50)]).length = 3
    ∧ defaultCfg.dims.length = 4 := by
  constructor
  · simp [featureKey, getDimIndex, dimScore, pyGet, defaultCfg, List.find?,
      List.filterMap_cons]
  · rfl

/-- C3 (amended): every bin index `_feature_key` emits is within
`[0, bin_count - 1]` for its dimension (bin counts at least 1, as the default
configuration has); NaN scores are defaulted to 0 and out-of-range numeric
scores are clamped before binning, landing on the extreme bins; but a
dimension whose feature value is missing or non-numeric is dropped by the
loop — the key then has fewer indices than the configured dimensions — and an
empty feature dict yields the fixed float sentinel key `tuple([0.0] * 4)`. -/
theorem C3_feature_key_amended (cfg : MapConfig) (fs : List (String × PyVal))
    (hbins : ∀ d ∈ cfg.dims, 1 ≤ binsOf cfg d) :
    (fs ≠ [] →
       List.Forall₂ (fun d el => ∃ n : ℤ, el = KeyElem.intE n ∧ 0 ≤ n ∧ n ≤ binsOf cfg d - 1)
         (cfg.dims.filter (fun d => (dimScore fs d).isSome)) (featureKey cfg fs))
    ∧ (∀ d, pyGet fs d = some (PyVal.floatV PyFloat.nan) →
        getDimIndex cfg fs d = some (KeyElem.intE 0))
    ∧ (∀ d ∈ cfg.dims, ∀ q : ℚ, dimScore fs d = some q → 100 < q →
        getDimIndex cfg fs d = some (KeyElem.intE (binsOf cfg d - 1)))
    ∧ (∀ (d : String) (q : ℚ), dimScore fs d = some q → q < 0 →
        getDimIndex cfg fs d = some (KeyElem.intE 0))
    ∧ (∀ d, (pyGet fs d = none ∨ ∃ s, pyGet fs d = some (PyVal.strV s)) →
        getDimIndex cfg fs d = none)
    ∧ (fs = [] → featureKey cfg fs = List.replicate 4 KeyElem.zeroFloat) := by
  refine ⟨?_, ?_, ?_, ?_, ?_, ?_⟩
  · intro hne
    have hfk : featureKey cfg fs = cfg.dims.filterMap (getDimIndex cfg fs) := by
      rw [featureKey, if_neg (by simpa [List.isEmpty_iff] using hne)]
    rw [hfk]
    exact forall2_filter_filterMap cfg fs cfg.dims hbins
  · intro d hd
    have hs : dimScore fs d = some 0 := by rw [dimScore, hd]
    rw [getDimIndex, hs, Option.map_some']
    have : binIndex 0 (binsOf cfg d) = 0 := by
      unfold binIndex pyClamp
      norm_num
    rw [this]
  · intro d hd q hq h100
    have hb := hbins d hd
    rw [getDimIndex, hq, Option.map_some']
    have : binIndex q (binsOf cfg d) = binsOf cfg d - 1 := by
      unfold binIndex pyClamp
      have h1 : min q 100 = 100 := min_eq_right (le_of_lt h100)
      rw [h1]
      have h2 : max (0 : ℚ) 100 = 100 := by norm_num
      rw [h2]
      have h3 : (100 : ℚ) / 100 * ((binsOf cfg d : ℤ) : ℚ) = ((binsOf cfg d : ℤ) : ℚ) := by
        norm_num
      rw [h3, Int.floor_intCast]
      omega
    rw [this]
  · intro d q hq hneg
    rw [getDimIndex, hq, Option.map_some']
    have : binIndex q (binsOf cfg d) = 0 := by
      unfold binIndex pyClamp
      have h1 : min q 100 = q := min_eq_left (by linarith)
      rw [h1]
      have h2 : max (0 : ℚ) q = 0 := max_eq_left (le_of_lt hneg)
      rw [h2]
      norm_num
    rw [this]
  · intro d hd
    rcases hd with h | ⟨s, h⟩ <;> rw [getDimIndex, dimScore, h] <;> rfl
  · intro hnil
    rw [featureKey, if_pos (by simp [hnil])]

theorem C3_feature_key_amended_witness :
    getDimIndex defaultCfg [("novelty", PyVal.floatV PyFloat.nan)] "novelty"
      = some (KeyElem.intE 0) :=
  (C3_feature_key_amended defaultCfg [("novelty", PyVal.floatV PyFloat.nan)]
      (by decide)).2.1 "novelty" rfl

theorem padSet_length (l : List PResp) (j : ℕ) (r : PResp) :
    (padSet l j r).length = max l.length (j + 1) := by
  unfold padSet
  rw [List.length_set, List.length_append, List.length_replicate]
  omega

theorem padSet_getElem_self (l : List PResp) (j : ℕ) (r : PResp) :
    (padSet l j r)[j]? = some r := by
  unfold padSet
  apply List.getElem?_set_self
  rw [List.length_append, List.length_replicate]
  omega

theorem padSet_getElem_ne (l : List PResp) (j : ℕ) (r : PResp) (j2 : ℕ)
    (hne : j2 ≠ j) (hj2 : j2 < l.length) :
    (padSet l j r)[j2]? = l[j2]? := by
  unfold padSet
  rw [List.getElem?_set_ne (Ne.symm hne), List.getElem?_append_left hj2]

theorem groupAux_error (flat : List PResp) (r0 : PResp) (hr0 : r0 ∈ flat)
    (hbad : parseCid (cidOf r0) = none) :
    ∀ acc : List (List PResp), ∃ err, groupAux flat acc = Except.error err := by
  induction flat with
  | nil => cases hr0
  | cons r rest ih =>
    intro acc
    cases hp : parseCid (cidOf r) with
    | none => exact ⟨GroupError.badId (cidOf r), by simp only [groupAux, hp]⟩
    | some ij =>
      have hr0rest : r0 ∈ rest := by
        rcases List.mem_cons.mp hr0 with rfl | h
        · rw [hbad] at hp; cases hp
        · exact h
      by_cases hi : ij.1 < acc.length
      · obtain ⟨err, herr⟩ := ih hr0rest (acc.set ij.1 (padSet (acc.getD ij.1 []) ij.2 r))
        exact ⟨err, by simp only [groupAux, hp]; rw [if_pos hi]; exact herr⟩
      · exact ⟨GroupError.rowIndex ij.1, by simp only [groupAux, hp]; rw [if_neg hi]⟩

theorem cellAt_set_ne (acc : List (List PResp)) (i0 : ℕ) (row : List PResp)
    (i j : ℕ) (hne : i ≠ i0) :
    cellAt (acc.set i0 row) i j = cellAt acc i j := by
  unfold cellAt
  rw [List.getElem?_set_ne (Ne.symm hne)]

theorem cellAt_set_self (acc : List (List PResp)) (i0 : ℕ) (row : List PResp)
    (j : ℕ) (hi0 : i0 < acc.length) :
    cellAt (acc.set i0 row) i0 j = row[j]? := by
  unfold cellAt
  rw [List.getElem?_set_self hi0]
  rfl

theorem groupAux_places (flat : List PResp) :
    ∀ acc : List (List PResp),
      (∀ r ∈ flat, ∃ i j, parseCid (cidOf r) = some (i, j) ∧ i < acc.length) →
      (flat.map (fun r => parseCid (cidOf r))).Nodup →
      ∃ g, groupAux flat acc = Except.ok g ∧ g.length = acc.length
        ∧ (∀ i j r0, cellAt acc i j = some r0 →
            (∀ r2 ∈ flat, parseCid (cidOf r2) ≠ some (i, j)) → cellAt g i j = some r0)
        ∧ (∀ r ∈ flat, ∀ i j, parseCid (cidOf r) = some (i, j) → cellAt g i j = some r) := by
  induction flat with
  | nil =>
    intro acc _ _
    exact ⟨acc, rfl, rfl, fun i j r0 h _ => h, fun r hr => absurd hr (List.not_mem_nil r)⟩
  | cons r rest ih =>
    intro acc hall hnd
    obtain ⟨i0, j0, hp0, hi0⟩ := hall r (List.mem_cons_self _ _)
    have hrowD : acc.getD i0 [] = acc[i0]?.getD [] := by
      rw [List.getD_eq_getElem?_getD]
    have hall2 : ∀ r2 ∈ rest, ∃ i j, parseCid (cidOf r2) = some (i, j)
        ∧ i < (acc.set i0 (padSet (acc.getD i0 []) j0 r)).length := by
      intro r2 hr2
      obtain ⟨i, j, hp, hi⟩ := hall r2 (List.mem_cons_of_mem _ hr2)
      exact ⟨i, j, hp, by rw [List.length_set]; omega⟩
    have hnd2 : (rest.map (fun r => parseCid (cidOf r))).Nodup := (List.nodup_cons.mp hnd).2
    have hnotin : ∀ r2 ∈ rest, parseCid (cidOf r2) ≠ some (i0, j0) := by
      intro r2 hr2 hc
      have hhead : parseCid (cidOf r) ∉ rest.map (fun r => parseCid (cidOf r)) := by
        simpa using (List.nodup_cons.mp hnd).1
      rw [hp0] at hhead
      exact hhead (by rw [← hc]; exact List.mem_map_of_mem _ hr2)
    obtain ⟨g, hg, hglen, hpres, hplace⟩ :=
      ih (acc.set i0 (padSet (acc.getD i0 []) j0 r)) hall2 hnd2
    have hstep : groupAux (r :: rest) acc
        = groupAux rest (acc.set i0 (padSet (acc.getD i0 []) j0 r)) := by
      simp only [groupAux, hp0]
      rw [if_pos hi0]
    refine ⟨g, by rw [hstep]; exact hg, by rw [hglen, List.length_set], ?_, ?_⟩
    · intro i j r0 hcell huntouched
      have hur2 : ∀ r2 ∈ rest, parseCid (cidOf r2) ≠ some (i, j) :=
        fun r2 hr2 => huntouched r2 (List.mem_cons_of_mem _ hr2)
      refine hpres i j r0 ?_ hur2
      by_cases hii : i = i0
      · rw [hii] at hcell ⊢
        have hjj : j ≠ j0 := by
          intro hj
          exact huntouched r (List.mem_cons_self _ _) (by rw [hii, hj]; exact hp0)
        rw [cellAt_set_self _ _ _ _ hi0]
        have hjlt : j < (acc.getD i0 []).length := by
          by_contra hge
          push_neg at hge
          have : (acc[i0]?.getD [])[j]? = none := by
            rw [List.getElem?_eq_none]
            rw [← hrowD]
            exact hge
          unfold cellAt at hcell
          rw [this] at hcell
          cases hcell
        rw [padSet_getElem_ne _ _ _ _ hjj hjlt]
        unfold cellAt at hcell
        rw [← hrowD] at hcell
        exact hcell
      · rw [cellAt_set_ne _ _ _ _ _ hii]
        exact hcell
    · intro r2 hr2 i j hp2
      rcases List.mem_cons.mp hr2 with rfl | hrest
      · rw [hp0] at hp2
        have h1 : i0 = i := by injection hp2 with h; exact congrArg Prod.fst h
        have h2 : j0 = j := by injection hp2 with h; exact congrArg Prod.snd h
        refine hpres i j r2 ?_ ?_
        · rw [← h1, ← h2, cellAt_set_self _ _ _ _ hi0]
          exact padSet_getElem_self _ _ _
        · intro r3 hr3
          rw [← h1, ← h2]
          exact hnotin r3 hr3
      · exact hplace r2 hrest i j hp2

/-- C5: when re-grouping the flat batched pass@k response, any response whose
identity does not parse as the composite `i:j` form makes the whole regrouping
abort with an error — no partial grouped result is produced (the result is the
`error` variant, carrying no grouped structure); and when every identity
parses as `i:j` with `i` a sent candidate index and the identities are
pairwise distinct (as the batching protocol guarantees), regrouping succeeds
with `n` rows and every response is found at exactly position `(i, j)`. -/
theorem C5_verify_passk_grouping (n : ℕ) (flat : List PResp) :
    ((∃ r ∈ flat, parseCid (cidOf r) = none) →
       ∃ err, verifyPasskGroup n flat = Except.error err)
    ∧ ((∀ r ∈ flat, ∃ i j, parseCid (cidOf r) = some (i, j) ∧ i < n) →
       (flat.map (fun r => parseCid (cidOf r))).Nodup →
       ∃ g, verifyPasskGroup n flat = Except.ok g ∧ g.length = n
         ∧ ∀ r ∈ flat, ∀ i j, parseCid (cidOf r) = some (i, j) → cellAt g i j = some r) := by
  constructor
  · rintro ⟨r0, hr0, hbad⟩
    exact groupAux_error flat r0 hr0 hbad (List.replicate n [])
  · intro hall hnd
    have hall2 : ∀ r ∈ flat, ∃ i j, parseCid (cidOf r) = some (i, j)
        ∧ i < (List.replicate n ([] : List PResp)).length := by
      intro r hr
      obtain ⟨i, j, hp, hi⟩ := hall r hr
      exact ⟨i, j, hp, by rw [List.length_replicate]; exact hi⟩
    obtain ⟨g, hg, hglen, -, hplace⟩ := groupAux_places flat (List.replicate n []) hall2 hnd
    exact ⟨g, hg, by rw [hglen, List.length_replicate], hplace⟩

theorem C5_verify_passk_grouping_witness :
    (∃ err, verifyPasskGroup 1 [{ customId := some "abc", idField := none, payload := "x" }]
        = Except.error err)
    ∧ ∃ g, verifyPasskGroup 1 [{ customId := some "0:0", idField := none, payload := "y" }]
        = Except.ok g ∧ g.length = 1
        ∧ ∀ r ∈ [({ customId := some "0:0", idField := none, payload := "y" } : PResp)],
            ∀ i j, parseCid (cidOf r) = some (i, j) → cellAt g i j = some r :=
  ⟨(C5_verify_passk_grouping 1 _).1
      ⟨{ customId := some "abc", idField := none, payload := "x" },
       List.mem_singleton.mpr rfl, by decide⟩,
   (C5_verify_passk_grouping 1 _).2
      (by
        intro r hr
        rw [List.mem_singleton.mp hr]
        exact ⟨0, 0, by decide, by decide⟩)
      (by decide)⟩

theorem digitChar_isDigit (n : ℕ) (h : n < 10) : (Nat.digitChar n).isDigit = true := by
  revert h
  revert n
  decide

theorem digitVal_digitChar (n : ℕ) (h : n < 10) : digitVal (Nat.digitChar n) = n := by
  revert h
  revert n
  decide

theorem isDigit_ne_dash (c : Char) (h : c.isDigit = true) : c ≠ '-' := by
  intro hc
  rw [hc] at h
  cases h

theorem isDigit_ne_comma (c : Char) (h : c.isDigit = true) : c ≠ ',' := by
  intro hc
  rw [hc] at h
  cases h

theorem natDigitsRev_ne_nil (n : ℕ) : natDigitsRev n ≠ [] := by
  unfold natDigitsRev
  split_ifs <;> simp

theorem natDigitsRev_digits (n : ℕ) : ∀ c ∈ natDigitsRev n, c.isDigit = true := by
  induction n using natDigitsRev.induct with
  | case1 n h =>
    unfold natDigitsRev
    rw [dif_pos h]
    intro c hc
    rw [List.mem_singleton.mp hc]
    exact digitChar_isDigit n h
  | case2 n h ih =>
    unfold natDigitsRev
    rw [dif_neg h]
    intro c hc
    rcases List.mem_cons.mp hc with rfl | hc2
    · exact digitChar_isDigit _ (Nat.mod_lt n (by omega))
    · exact ih c hc2

theorem foldl_natDigitsRev (n a : ℕ) :
    ((natDigitsRev n).reverse).foldl (fun acc c => 10 * acc + digitVal c) a
      = a * 10 ^ (natDigitsRev n).length + n := by
  induction n using natDigitsRev.induct generalizing a with
  | case1 n h =>
    unfold natDigitsRev
    rw [dif_pos h]
    simp [digitVal_digitChar n h]
    ring
  | case2 n h ih =>
    unfold natDigitsRev
    rw [dif_neg h]
    rw [List.reverse_cons, List.foldl_append, ih a]
    simp only [List.foldl_cons, List.foldl_nil, List.length_cons]
    rw [digitVal_digitChar _ (Nat.mod_lt n (by omega))]
    have hdm : 10 * (n / 10) + n % 10 = n := Nat.div_add_mod n 10
    rw [pow_succ]
    ring_nf
    omega

theorem parseNat_natStr (n : ℕ) : parseNatChars (natStrChars n) = some n := by
  unfold parseNatChars natStrChars
  have hne : (natDigitsRev n).reverse ≠ [] := by
    simpa using natDigitsRev_ne_nil n
  rw [if_neg (by simpa [List.isEmpty_iff] using hne)]
  have hdig : ((natDigitsRev n).reverse).all Char.isDigit = true := by
    rw [List.all_eq_true]
    intro c hc
    exact natDigitsRev_digits n c (List.mem_reverse.mp hc)
  rw [if_pos hdig]
  rw [foldl_natDigitsRev n 0]
  simp

theorem natStrChars_digits (n : ℕ) : ∀ c ∈ natStrChars n, c.isDigit = true := by
  intro c hc
  exact natDigitsRev_digits n c (List.mem_reverse.mp hc)

theorem natStrChars_ne_nil (n : ℕ) : natStrChars n ≠ [] := by
  unfold natStrChars
  simpa using natDigitsRev_ne_nil n

theorem parseInt_intStr (z : ℤ) : parseIntChars (intStrChars z) = some z := by
  unfold intStrChars
  split_ifs with hneg
  · show parseIntChars ('-' :: natStrChars z.natAbs) = some z
    have heq : parseIntChars ('-' :: natStrChars z.natAbs)
        = if ('-' : Char) = '-' then (parseNatChars (natStrChars z.natAbs)).map (fun m => -(m : ℤ))
          else (parseNatChars ('-' :: natStrChars z.natAbs)).map (fun m => (m : ℤ)) := rfl
    rw [heq, if_pos rfl, parseNat_natStr]
    simp
    rw [abs_of_nonpos (le_of_lt hneg)]
    ring
  · cases hch : natStrChars z.natAbs with
    | nil => exact absurd hch (natStrChars_ne_nil _)
    | cons c cs =>
      have hcd : c.isDigit = true :=
        natStrChars_digits _ c (by rw [hch]; exact List.mem_cons_self _ _)
      show parseIntChars (c :: cs) = some z
      have heq : parseIntChars (c :: cs)
          = if c = '-' then (parseNatChars cs).map (fun m => -(m : ℤ))
            else (parseNatChars (c :: cs)).map (fun m => (m : ℤ)) := rfl
      rw [heq, if_neg (isDigit_ne_dash c hcd), ← hch, parseNat_natStr]
      simp
      omega

theorem keyElemChars_intE_no_comma (z : ℤ) : ',' ∉ keyElemChars (KeyElem.intE z) := by
  intro hc
  have hk : keyElemChars (KeyElem.intE z) = intStrChars z := rfl
  rw [hk] at hc
  unfold intStrChars at hc
  split_ifs at hc with h
  · rcases List.mem_cons.mp hc with h1 | h2
    · cases h1
    · exact (isDigit_ne_comma ',' (natStrChars_digits _ _ h2)) rfl
  · exact (isDigit_ne_comma ',' (natStrChars_digits _ _ hc)) rfl

theorem pySplitChar_ne_nil (sep : Char) (cs : List Char) : pySplitChar sep cs ≠ [] := by
  cases cs with
  | nil => simp [pySplitChar]
  | cons c cs =>
    unfold pySplitChar
    cases pySplitChar sep cs with
    | nil => simp
    | cons p ps => split_ifs <;> simp

theorem pySplitChar_append (sep : Char) (p cs : List Char) (hp : sep ∉ p)
    (q : List Char) (qs : List (List Char)) (hcs : pySplitChar sep cs = q :: qs) :
    pySplitChar sep (p ++ cs) = (p ++ q) :: qs := by
  induction p with
  | nil => simpa using hcs
  | cons c p2 ih =>
    have hc : c ≠ sep := fun hh => hp (hh ▸ List.mem_cons_self _ _)
    have hp2 : sep ∉ p2 := fun hh => hp (List.mem_cons_of_mem _ hh)
    have hrec := ih hp2
    show pySplitChar sep (c :: (p2 ++ cs)) = (c :: (p2 ++ q)) :: qs
    have hstep : pySplitChar sep (c :: (p2 ++ cs))
        = match pySplitChar sep (p2 ++ cs) with
          | [] => [[]]
          | r :: rs => if c = sep then [] :: r :: rs else (c :: r) :: rs := rfl
    rw [hstep, hrec]
    show (if c = sep then [] :: (p2 ++ q) :: qs else (c :: (p2 ++ q)) :: qs)
      = (c :: (p2 ++ q)) :: qs
    rw [if_neg hc]

theorem splitComma_joinComma (parts : List (List Char)) (hne : parts ≠ [])
    (hp : ∀ p ∈ parts, ',' ∉ p) :
    splitComma (joinComma parts) = parts := by
  induction parts with
  | nil => exact absurd rfl hne
  | cons p ps ih =>
    cases ps with
    | nil =>
      have hj : joinComma [p] = p := rfl
      show splitComma (joinComma [p]) = [p]
      rw [hj]
      unfold splitComma
      have hbase : pySplitChar ',' ([] : List Char) = [] :: [] := rfl
      have happ := pySplitChar_append ',' p [] (hp p (List.mem_cons_self _ _)) [] [] hbase
      simpa using happ
    | cons p2 ps2 =>
      have hjoin : joinComma (p :: p2 :: ps2) = p ++ ',' :: joinComma (p2 :: ps2) := rfl
      have hps : ∀ x ∈ p2 :: ps2, ',' ∉ x := fun x hx => hp x (List.mem_cons_of_mem _ hx)
      have hih : splitComma (joinComma (p2 :: ps2)) = p2 :: ps2 := ih (by simp) hps
      unfold splitComma at hih
      have hmid : pySplitChar ',' (',' :: joinComma (p2 :: ps2)) = [] :: p2 :: ps2 := by
        have hstep : pySplitChar ',' (',' :: joinComma (p2 :: ps2))
            = match pySplitChar ',' (joinComma (p2 :: ps2)) with
              | [] => [[]]
              | r :: rs => if (',' : Char) = ',' then [] :: r :: rs else (',' :: r) :: rs := rfl
        rw [hstep, hih]
        show (if (',' : Char) = ',' then [] :: p2 :: ps2 else (',' :: p2) :: ps2)
          = [] :: p2 :: ps2
        rw [if_pos rfl]
      show splitComma (joinComma (p :: p2 :: ps2)) = p :: p2 :: ps2
      rw [hjoin]
      unfold splitComma
      have happ := pySplitChar_append ',' p (',' :: joinComma (p2 :: ps2))
        (hp p (List.mem_cons_self _ _)) [] (p2 :: ps2) hmid
      simpa using happ

theorem traverseKey_roundtrip (k : NicheKey) (hint : k.all isIntElem = true) :
    traverseKey (k.map keyElemChars) = some k := by
  induction k with
  | nil => rfl
  | cons e rest ih =>
    rw [List.all_cons, Bool.and_eq_true] at hint
    cases e with
    | zeroFloat => cases hint.1
    | intE z =>
      show traverseKey (keyElemChars (KeyElem.intE z) :: rest.map keyElemChars)
        = some (KeyElem.intE z :: rest)
      have hstep : traverseKey (keyElemChars (KeyElem.intE z) :: rest.map keyElemChars)
          = match parseIntChars (keyElemChars (KeyElem.intE z)),
              traverseKey (rest.map keyElemChars) with
            | some z2, some k => some (KeyElem.intE z2 :: k)
            | _, _ => none := rfl
      have hz : parseIntChars (keyElemChars (KeyElem.intE z)) = some z := parseInt_intStr z
      rw [hstep, hz, ih hint.2]

theorem parseKey_roundtrip (k : NicheKey) (hne : k ≠ [])
    (hint : k.all isIntElem = true) :
    parseKeyChars (joinComma (k.map keyElemChars)) = some k := by
  unfold parseKeyChars
  rw [splitComma_joinComma]
  · exact traverseKey_roundtrip k hint
  · simpa using hne
  · intro p hpmem
    obtain ⟨e, hemem, rfl⟩ := List.mem_map.mp hpmem
    have hie : isIntElem e = true := (List.all_eq_true.mp hint) e hemem
    cases e with
    | zeroFloat => cases hie
    | intE z => exact keyElemChars_intE_no_comma z

theorem loadDoc_roundtrip_aux (m : List (NicheKey × Entry)) :
    ∀ acc : List (NicheKey × Entry),
      (∀ kr ∈ m, parseKeyChars (joinComma (kr.1.map keyElemChars)) = some kr.1) →
      (∀ k ∈ m.map Prod.fst, k ∉ acc.map Prod.fst) →
      (m.map Prod.fst).Nodup →
      loadDoc (persistDoc m) acc = acc ++ m := by
  induction m with
  | nil => intro acc _ _ _; simp [persistDoc, loadDoc]
  | cons kr rest ih =>
    intro acc hparse hdisj hnd
    obtain ⟨k, r⟩ := kr
    have hstep : persistDoc ((k, r) :: rest)
        = (joinComma (k.map keyElemChars), r) :: persistDoc rest := rfl
    rw [hstep]
    have hpk : parseKeyChars (joinComma (k.map keyElemChars)) = some k :=
      hparse (k, r) (List.mem_cons_self _ _)
    have hload : loadDoc ((joinComma (k.map keyElemChars), r) :: persistDoc rest) acc
        = loadDoc (persistDoc rest) (dictSet acc k r) := by
      have h2 : loadDoc ((joinComma (k.map keyElemChars), r) :: persistDoc rest) acc
          = match parseKeyChars (joinComma (k.map keyElemChars)) with
            | none => loadDoc (persistDoc rest) acc
            | some k2 => loadDoc (persistDoc rest) (dictSet acc k2 r) := rfl
      rw [h2, hpk]
    rw [hload]
    have hknotin : k ∉ acc.map Prod.fst :=
      hdisj k (by simp)
    rw [dictSet_eq_append_of_not_mem acc k r hknotin]
    rw [List.map_cons] at hnd
    have hpair := List.nodup_cons.mp hnd
    have hnd2 : (rest.map Prod.fst).Nodup := hpair.2
    have hknotrest : k ∉ rest.map Prod.fst := hpair.1
    have hdisj2 : ∀ k2 ∈ rest.map Prod.fst, k2 ∉ (acc ++ [(k, r)]).map Prod.fst := by
      intro k2 hk2
      rw [List.map_append, List.mem_append]
      rintro (h | h)
      · exact hdisj k2 (by simp [List.mem_cons]; right; simpa using hk2) h
      · simp at h
        rw [h] at hk2
        exact hknotrest hk2
    have hparse2 : ∀ kr ∈ rest, parseKeyChars (joinComma (kr.1.map keyElemChars)) = some kr.1 :=
      fun kr2 hkr2 => hparse kr2 (List.mem_cons_of_mem _ hkr2)
    rw [ih (acc ++ [(k, r)]) hparse2 hdisj2 hnd2]
    simp

/-- C7 counterexample: a non-empty in-memory archive state is not always
recovered by persist-then-load. The reachable state holding one elite at the
float sentinel key `tuple([0.0] * 4)` (produced by `_feature_key` for an
entry with an empty feature dict) serializes its key as `"0.0,0.0,0.0,0.0"`;
`load_existing` fails `int("0.0")` and skips the entry, so the loaded map is
empty and differs from the persisted state. -/
theorem C7_counterexample :
    loadDoc (persistDoc [(List.replicate 4 KeyElem.zeroFloat,
        mkEntry (some "a") (some 1) (some 50) [])]) [] = []
    ∧ [(List.replicate 4 KeyElem.zeroFloat, mkEntry (some "a") (some 1) (some 50) [])]
        ≠ ([] : List (NicheKey × Entry)) := by
  constructor
  · decide
  · decide

/-- C7 (amended): for every non-empty in-memory archive state whose niche
keys are non-empty tuples of integer bin indices (the shape `_feature_key`
produces whenever at least one configured dimension binned numerically) with
pairwise-distinct keys, persist followed by load into an empty archive
round-trips to an equivalent map: literally the same association list, hence
the same key set and the same elite record at every key. States holding the
float sentinel key `tuple([0.0] * 4)` are excluded: their stringified key does
not parse back (see the counterexample). -/
theorem C7_persist_load_roundtrip_amended (m : List (NicheKey × Entry))
    (hkeys : ∀ kr ∈ m, kr.1 ≠ [] ∧ kr.1.all isIntElem = true)
    (hnodup : (m.map Prod.fst).Nodup) :
    loadDoc (persistDoc m) [] = m
    ∧ (loadDoc (persistDoc m) []).map Prod.fst = m.map Prod.fst
    ∧ ∀ k, pyGet (loadDoc (persistDoc m) []) k = pyGet m k := by
  have hmain : loadDoc (persistDoc m) [] = m := by
    have := loadDoc_roundtrip_aux m []
      (fun kr hkr => parseKey_roundtrip kr.1 (hkeys kr hkr).1 (hkeys kr hkr).2)
      (by simp) hnodup
    simpa using this
  exact ⟨hmain, by rw [hmain], fun k => by rw [hmain]⟩

theorem C7_persist_load_roundtrip_amended_witness :
    loadDoc (persistDoc [([KeyElem.intE 1, KeyElem.intE 2],
        mkEntry (some "a") (some 1) (some 50) []),
      ([KeyElem.intE 0, KeyElem.intE 9], mkEntry (some "b") (some 2) (some 60) [])]) []
      = [([KeyElem.intE 1, KeyElem.intE 2], mkEntry (some "a") (some 1) (some 50) []),
         ([KeyElem.intE 0, KeyElem.intE 9], mkEntry (some "b") (some 2) (some 60) [])] :=
  (C7_persist_load_roundtrip_amended _ (by decide) (by decide)).1

theorem foldlPick_all_lt (ds : List (String × ℝ)) (b : String × ℝ)
    (h : ∀ x ∈ ds, x.2 < b.2) :
    ds.foldl (fun b x => if x.2 > b.2 then x else b) b = b := by
  induction ds generalizing b with
  | nil => rfl
  | cons d ds ih =>
    simp only [List.foldl_cons]
    rw [if_neg (lt_asymm (h d (List.mem_cons_self _ _)))]
    exact ih b (fun x hx => h x (List.mem_cons_of_mem _ hx))

theorem foldlPick_unique (ds : List (String × ℝ)) :
    ∀ (b : String × ℝ) (i : ℕ) (hi : i < ds.length),
      b.2 < (ds.get ⟨i, hi⟩).2 →
      (∀ i2 (hi2 : i2 < ds.length), i2 ≠ i → (ds.get ⟨i2, hi2⟩).2 < (ds.get ⟨i, hi⟩).2) →
      ds.foldl (fun b x => if x.2 > b.2 then x else b) b = ds.get ⟨i, hi⟩ := by
  induction ds with
  | nil => intro b i hi; exact absurd hi (Nat.not_lt_zero i)
  | cons d ds ih =>
    intro b i hi hbi hmax
    cases i with
    | zero =>
      have hd : (d :: ds).get ⟨0, hi⟩ = d := rfl
      rw [hd] at hbi hmax ⊢
      simp only [List.foldl_cons]
      rw [if_pos hbi]
      apply foldlPick_all_lt
      intro x hx
      obtain ⟨n, hget⟩ := List.mem_iff_get.mp hx
      have hstep := hmax (n.val + 1) (by simp only [List.length_cons]; omega) (by omega)
      have hcast : (d :: ds).get ⟨n.val + 1, by simp only [List.length_cons]; omega⟩
          = ds.get n := by
        simp [List.get_cons_succ]
      rw [hcast, hget] at hstep
      exact hstep
    | succ i2 =>
      have hi2 : i2 < ds.length := by
        simp only [List.length_cons] at hi
        omega
      have htarget : (d :: ds).get ⟨i2 + 1, hi⟩ = ds.get ⟨i2, hi2⟩ := by
        simp [List.get_cons_succ]
      rw [htarget] at hbi hmax ⊢
      simp only [List.foldl_cons]
      have hb2 : (if d.2 > b.2 then d else b).2 < (ds.get ⟨i2, hi2⟩).2 := by
        have hdlt := hmax 0 (by simp only [List.length_cons]; omega) (by omega)
        have hd0 : (d :: ds).get ⟨0, by simp only [List.length_cons]; omega⟩ = d := rfl
        rw [hd0] at hdlt
        split_ifs
        · exact hdlt
        · exact hbi
      apply ih _ i2 hi2 hb2
      intro i3 hi3 hne
      have hstep := hmax (i3 + 1) (by simp only [List.length_cons]; omega) (by omega)
      have hcast : (d :: ds).get ⟨i3 + 1, by simp only [List.length_cons]; omega⟩
          = ds.get ⟨i3, hi3⟩ := by
        simp [List.get_cons_succ]
      rw [hcast] at hstep
      exact hstep

theorem pickBest_unique (ds : List (String × ℝ)) (i : ℕ) (hi : i < ds.length)
    (hmax : ∀ i2 (hi2 : i2 < ds.length), i2 ≠ i →
      (ds.get ⟨i2, hi2⟩).2 < (ds.get ⟨i, hi⟩).2) :
    pickBest ds = (ds.get ⟨i, hi⟩).1 := by
  cases ds with
  | nil => exact absurd hi (Nat.not_lt_zero i)
  | cons d ds2 =>
    show (ds2.foldl (fun b x => if x.2 > b.2 then x else b) d).1 = _
    cases i with
    | zero =>
      have hd : (d :: ds2).get ⟨0, hi⟩ = d := rfl
      rw [hd]
      have hall : ∀ x ∈ ds2, x.2 < d.2 := by
        intro x hx
        obtain ⟨n, hget⟩ := List.mem_iff_get.mp hx
        have hstep := hmax (n.val + 1) (by simp only [List.length_cons]; omega) (by omega)
        have hcast : (d :: ds2).get ⟨n.val + 1, by simp only [List.length_cons]; omega⟩
            = ds2.get n := by
          simp [List.get_cons_succ]
        rw [hcast, hget, hd] at hstep
        exact hstep
      rw [foldlPick_all_lt ds2 d hall]
    | succ i2 =>
      have hi2 : i2 < ds2.length := by
        simp only [List.length_cons] at hi
        omega
      have htarget : (d :: ds2).get ⟨i2 + 1, hi⟩ = ds2.get ⟨i2, hi2⟩ := by
        simp [List.get_cons_succ]
      rw [htarget]
      have hbi : d.2 < (ds2.get ⟨i2, hi2⟩).2 := by
        have hdlt := hmax 0 (by simp only [List.length_cons]; omega) (by omega)
        have hd0 : (d :: ds2).get ⟨0, by simp only [List.length_cons]; omega⟩ = d := rfl
        rw [hd0, htarget] at hdlt
        exact hdlt
      have hmax2 : ∀ i3 (hi3 : i3 < ds2.length), i3 ≠ i2 →
          (ds2.get ⟨i3, hi3⟩).2 < (ds2.get ⟨i2, hi2⟩).2 := by
        intro i3 hi3 hne
        have hstep := hmax (i3 + 1) (by simp only [List.length_cons]; omega) (by omega)
        have hcast : (d :: ds2).get ⟨i3 + 1, by simp only [List.length_cons]; omega⟩
            = ds2.get ⟨i3, hi3⟩ := by
          simp [List.get_cons_succ]
        rw [hcast, htarget] at hstep
        exact hstep
      rw [foldlPick_unique ds2 d i2 hi2 hbi hmax2]

theorem statsGet_default (stats : List (String × ℤ × ℤ)) (op : String)
    (h : ∀ e ∈ stats, e.1 ≠ op) : statsGet stats op = (0, 0) := by
  unfold statsGet pyGet
  rw [List.find?_eq_none.mpr]
  · rfl
  · intro e he
    simpa using h e he

theorem drawsOf_get (stats : List (String × ℤ × ℤ)) (operators : List String)
    (beta : ℕ → ℤ → ℤ → ℝ) (i : ℕ) (hi : i < (operators ++ [novelArm]).length) :
    ∃ hi2 : i < (drawsOf stats operators beta).length,
      (drawsOf stats operators beta).get ⟨i, hi2⟩
        = ((operators ++ [novelArm]).get ⟨i, hi⟩,
           beta i ((statsGet stats ((operators ++ [novelArm]).get ⟨i, hi⟩)).1 + 1)
             ((statsGet stats ((operators ++ [novelArm]).get ⟨i, hi⟩)).2
               - (statsGet stats ((operators ++ [novelArm]).get ⟨i, hi⟩)).1 + 1)) := by
  have hlen : (drawsOf stats operators beta).length = (operators ++ [novelArm]).length := by
    simp [drawsOf]
  refine ⟨by omega, ?_⟩
  simp [drawsOf, List.get_eq_getElem, List.getElem_map, List.getElem_enum]

/-- C9: `choose_operator` computes the exploration probability as
`max(P_NOVEL_FLOOR, 0.25 * exp(-step / 5000))` (floor 0.2, base 0.25, decay
5000), returns the NOVEL arm when the uniform draw falls strictly below it,
and otherwise draws one `betavariate(wins + 1, tries - wins + 1)` sample per
arm over the known operators plus the NOVEL arm — an arm with no recorded
stats defaulting to `(0, 0)`, i.e. Beta(1, 1) — and returns the arm carrying
the (strictly) largest sample. `u` is the `random.random()` draw and `beta`
the stream of `random.betavariate` outcomes indexed by call position. -/
theorem C9_choose_operator (stats : List (String × ℤ × ℤ)) (operators : List String)
    (step : ℕ) (u : ℝ) (beta : ℕ → ℤ → ℤ → ℝ) :
    (epsilonOf step = max 0.2 (0.25 * Real.exp (-(step : ℝ) / 5000)))
    ∧ (u < epsilonOf step → chooseOperator stats operators step u beta = novelArm)
    ∧ (¬ u < epsilonOf step →
        ∀ i (hi : i < (drawsOf stats operators beta).length),
          (∀ i2 (hi2 : i2 < (drawsOf stats operators beta).length), i2 ≠ i →
            ((drawsOf stats operators beta).get ⟨i2, hi2⟩).2
              < ((drawsOf stats operators beta).get ⟨i, hi⟩).2) →
          chooseOperator stats operators step u beta
            = ((drawsOf stats operators beta).get ⟨i, hi⟩).1)
    ∧ (∀ i (hi : i < (operators ++ [novelArm]).length),
        ∃ hi2 : i < (drawsOf stats operators beta).length,
          (drawsOf stats operators beta).get ⟨i, hi2⟩
            = ((operators ++ [novelArm]).get ⟨i, hi⟩,
               beta i ((statsGet stats ((operators ++ [novelArm]).get ⟨i, hi⟩)).1 + 1)
                 ((statsGet stats ((operators ++ [novelArm]).get ⟨i, hi⟩)).2
                   - (statsGet stats ((operators ++ [novelArm]).get ⟨i, hi⟩)).1 + 1)))
    ∧ (∀ op : String, (∀ e ∈ stats, e.1 ≠ op) → statsGet stats op = (0, 0)) := by
  refine ⟨rfl, ?_, ?_, fun i hi => drawsOf_get stats operators beta i hi,
    fun op h => statsGet_default stats op h⟩
  · intro h
    unfold chooseOperator
    rw [if_pos h]
  · intro h i hi hmax
    unfold chooseOperator
    rw [if_neg h]
    exact pickBest_unique _ i hi hmax

theorem C9_choose_operator_witness :
    chooseOperator [] ["a"] 0 0 (fun _ _ _ => 1) = novelArm
    ∧ chooseOperator [] ["a", "b"] 0 1 (fun i _ _ => if i = 0 then 2 else 1) = "a" := by
  have hlt : (0 : ℝ) < epsilonOf 0 :=
    lt_of_lt_of_le (by norm_num) (le_max_left 0.2 _)
  have hnot : ¬ (1 : ℝ) < epsilonOf 0 := by
    rw [not_lt, epsilonOf]
    apply max_le
    · norm_num
    · simp [Real.exp_zero]
      norm_num
  constructor
  · exact (C9_choose_operator [] ["a"] 0 0 (fun _ _ _ => 1)).2.1 hlt
  · have hmax : ∀ i2 (hi2 : i2 <
        (drawsOf [] ["a", "b"] (fun i _ _ => if i = 0 then 2 else 1)).length), i2 ≠ 0 →
        ((drawsOf [] ["a", "b"] (fun i _ _ => if i = 0 then 2 else 1)).get ⟨i2, hi2⟩).2
          < ((drawsOf [] ["a", "b"] (fun i _ _ => if i = 0 then 2 else 1)).get
              ⟨0, by simp [drawsOf]⟩).2 := by
      intro i2 hi2 hne
      have hb : i2 < 3 := by simpa [drawsOf] using hi2
      interval_cases i2
      · exact absurd rfl hne
      · show ((if (1 : ℕ) = 0 then (2 : ℝ) else 1)) < (if (0 : ℕ) = 0 then (2 : ℝ) else 1)
        norm_num
      · show ((if (2 : ℕ) = 0 then (2 : ℝ) else 1)) < (if (0 : ℕ) = 0 then (2 : ℝ) else 1)
        norm_num
    have := (C9_choose_operator [] ["a", "b"] 0 1 (fun i _ _ => if i = 0 then 2 else 1)).2.2.1
      hnot 0 (by simp [drawsOf]) hmax
    rw [this]
    rfl
